import Mathlib

set_option maxHeartbeats 1000000

/-! Verification of the packager-extras archive transformation pipeline
(`app.py`).  Paths, file contents and all other strings are modelled as
`List Char`; the file system is an association list from full paths to
contents; the zip library, the image library and the two external tools
are modelled at their documented I/O contracts. -/

/-- Worker for `replaceList`.  In state `0` it scans for the pattern; in
state `n + 1` it is still consuming the `n + 1` remaining characters of a
pattern occurrence that has just been replaced. -/
def replaceListAux (p r : List Char) : Nat → List Char → List Char
  | _, [] => []
  | 0, c :: cs =>
    if p.isPrefixOf (c :: cs) then r ++ replaceListAux p r (p.length - 1) cs
    else c :: replaceListAux p r 0 cs
  | n + 1, _ :: cs => replaceListAux p r n cs

/-- One pass of Python `str.replace`: replace every non-overlapping
occurrence of the pattern `p` with `r`, scanning left to right, never
rescanning the replacement text.  Only called with non-empty patterns. -/
def replaceList (p r s : List Char) : List Char :=
  replaceListAux p r 0 s

theorem replaceListAux_skip (p r : List Char) :
    ∀ b t : List Char, replaceListAux p r b.length (b ++ t)
      = replaceListAux p r 0 t := by
  intro b
  induction b with
  | nil => intro t; rfl
  | cons x xs ih => intro t; exact ih t

theorem replaceList_cons_pos (p r : List Char) (c : Char) (cs : List Char)
    (h : p.isPrefixOf (c :: cs) = true) :
    replaceList p r (c :: cs) = r ++ replaceListAux p r (p.length - 1) cs := by
  unfold replaceList
  rw [replaceListAux]
  simp [h]

theorem replaceList_cons_neg (p r : List Char) (c : Char) (cs : List Char)
    (h : p.isPrefixOf (c :: cs) = false) :
    replaceList p r (c :: cs) = c :: replaceList p r cs := by
  unfold replaceList
  rw [replaceListAux]
  simp [h]

/-- Embeds `escape_html` (app.py lines 63-71): five chained
single-character replacements, `&` first, then `>`, `<`, `'`, `"`. -/
def escape_html (s : List Char) : List Char :=
  replaceList ['"'] "&quot;".data
    (replaceList ['\x27'] "&apos;".data
      (replaceList ['<'] "&lt;".data
        (replaceList ['>'] "&gt;".data
          (replaceList ['&'] "&amp;".data s))))

/-- Embeds `unescape_html` (app.py lines 73-81): the five replacements
of `escape_html` undone in reverse order, `&quot;` first, `&amp;` last. -/
def unescape_html (s : List Char) : List Char :=
  replaceList "&amp;".data ['&']
    (replaceList "&gt;".data ['>']
      (replaceList "&lt;".data ['<']
        (replaceList "&apos;".data ['\x27']
          (replaceList "&quot;".data ['"'] s))))

/-- Embeds `escape_inno_value` (app.py lines 89-94): double every
literal opening brace, then strip every double quote. -/
def escape_inno_value (s : List Char) : List Char :=
  replaceList ['"'] []
    (replaceList ['\x7b'] ['\x7b', '\x7b'] s)

/-- Maps every character to a block of characters and concatenates the
blocks; used to characterise the replacement chains characterwise. -/
def charMapConcat (f : Char → List Char) : List Char → List Char
  | [] => []
  | c :: cs => f c ++ charMapConcat f cs

theorem charMapConcat_id (s : List Char) :
    charMapConcat (fun c => [c]) s = s := by
  induction s with
  | nil => rfl
  | cons c cs ih => simp [charMapConcat, ih]

theorem replaceList_nil (p r : List Char) : replaceList p r [] = [] := rfl

/-- The pattern always matches at the front of `p ++ t`, the replacement
is emitted and scanning resumes right after the consumed pattern. -/
theorem replaceList_head_match (p r t : List Char) (hp : p ≠ []) :
    replaceList p r (p ++ t) = r ++ replaceList p r t := by
  cases p with
  | nil => exact absurd rfl hp
  | cons a as =>
    have hpre : (a :: as).isPrefixOf ((a :: as) ++ t) = true :=
      List.isPrefixOf_iff_prefix.mpr (List.prefix_append (a :: as) t)
    rw [List.cons_append] at hpre
    rw [List.cons_append, replaceList_cons_pos (a :: as) r a (as ++ t) hpre]
    congr 1
    have hlen : (a :: as).length - 1 = as.length := by
      simp
    rw [hlen, replaceListAux_skip]
    rfl

/-- A scan position whose head character differs from the pattern's head
is passed through unchanged. -/
theorem replaceList_head_skip (a : Char) (ps r : List Char) (c : Char)
    (t : List Char) (h : c ≠ a) :
    replaceList (a :: ps) r (c :: t) = c :: replaceList (a :: ps) r t := by
  apply replaceList_cons_neg
  apply Bool.eq_false_iff.mpr
  intro hpre
  rcases List.isPrefixOf_iff_prefix.mp hpre with ⟨u, hu⟩
  have : a = c := by
    have := congrArg (fun l => l.head?) hu
    simpa using this
  exact h this.symm

/-- A block none of whose characters equals the pattern's head character
is passed through unchanged. -/
theorem replaceList_block_skip (a : Char) (ps r b t : List Char)
    (h : ∀ x ∈ b, x ≠ a) :
    replaceList (a :: ps) r (b ++ t) = b ++ replaceList (a :: ps) r t := by
  induction b with
  | nil => simp
  | cons c cs ih =>
    have hc : c ≠ a := h c (List.mem_cons_self c cs)
    rw [List.cons_append, replaceList_head_skip a ps r c _ hc,
      ih (fun x hx => h x (List.mem_cons_of_mem c hx))]
    rfl

/-- If pattern and block disagree at an index inside both, the pattern
cannot match at the block's start, whatever follows the block. -/
theorem isPrefixOf_false_of_mismatch (p b t : List Char) (k : Nat)
    (hk1 : k < b.length) (hk2 : k < p.length)
    (hne : b.get ⟨k, hk1⟩ ≠ p.get ⟨k, hk2⟩) :
    ¬ p.isPrefixOf (b ++ t) := by
  intro hpre
  rcases List.isPrefixOf_iff_prefix.mp hpre with ⟨u, hu⟩
  have hb : (b ++ t).get? k = b.get? k := List.get?_append hk1
  have hp : (p ++ u).get? k = p.get? k := List.get?_append hk2
  rw [hu] at hp
  have heq : p.get? k = b.get? k := by rw [← hp, hb]
  rw [List.get?_eq_get hk2, List.get?_eq_get hk1] at heq
  exact hne (Option.some.inj heq).symm

/-- A block that disagrees with the pattern at an index inside both, and
whose tail avoids the pattern's head character, is passed through
unchanged. -/
theorem replaceList_block_mismatch (a : Char) (ps r : List Char)
    (b0 : Char) (bs t : List Char) (k : Nat)
    (hk1 : k < (b0 :: bs).length) (hk2 : k < (a :: ps).length)
    (hne : (b0 :: bs).get ⟨k, hk1⟩ ≠ (a :: ps).get ⟨k, hk2⟩)
    (hbs : ∀ x ∈ bs, x ≠ a) :
    replaceList (a :: ps) r ((b0 :: bs) ++ t)
      = (b0 :: bs) ++ replaceList (a :: ps) r t := by
  have hpre : (a :: ps).isPrefixOf (b0 :: (bs ++ t)) = false := by
    apply Bool.eq_false_iff.mpr
    rw [← List.cons_append]
    exact isPrefixOf_false_of_mismatch (a :: ps) (b0 :: bs) t k hk1 hk2 hne
  rw [List.cons_append, replaceList_cons_neg (a :: ps) r b0 (bs ++ t) hpre,
    replaceList_block_skip a ps r bs t hbs]
  rfl

/-- Replacement distributes over a block decomposition: if each block of
`f` is rewritten to the corresponding block of `g` independently of what
follows, a whole block-mapped string is rewritten blockwise. -/
theorem replaceList_charMapConcat (p r : List Char) (f g : Char → List Char)
    (h : ∀ c t, replaceList p r (f c ++ t) = g c ++ replaceList p r t)
    (s : List Char) :
    replaceList p r (charMapConcat f s) = charMapConcat g s := by
  induction s with
  | nil => simp [charMapConcat, replaceList_nil]
  | cons c cs ih =>
    have : charMapConcat f (c :: cs) = f c ++ charMapConcat f cs := rfl
    rw [this, h c (charMapConcat f cs), ih]
    rfl

/-- Escape stage 1: entity for the ampersand only. -/
def escStage1 (c : Char) : List Char :=
  if c = '&' then "&amp;".data else [c]

/-- Escape stage 2: entities for ampersand and greater-than. -/
def escStage2 (c : Char) : List Char :=
  if c = '&' then "&amp;".data else if c = '>' then "&gt;".data else [c]

/-- Escape stage 3: entities for ampersand, greater-than, less-than. -/
def escStage3 (c : Char) : List Char :=
  if c = '&' then "&amp;".data else if c = '>' then "&gt;".data
  else if c = '<' then "&lt;".data else [c]

/-- Escape stage 4: entities for all specials except the double quote. -/
def escStage4 (c : Char) : List Char :=
  if c = '&' then "&amp;".data else if c = '>' then "&gt;".data
  else if c = '<' then "&lt;".data else if c = '\x27' then "&apos;".data
  else [c]

/-- Escape stage 5: the full character-to-entity map of `escape_html`. -/
def escStage5 (c : Char) : List Char :=
  if c = '&' then "&amp;".data else if c = '>' then "&gt;".data
  else if c = '<' then "&lt;".data else if c = '\x27' then "&apos;".data
  else if c = '"' then "&quot;".data else [c]

theorem escape_step1 : ∀ c t,
    replaceList ['&'] "&amp;".data ((fun c => [c]) c ++ t)
      = escStage1 c ++ replaceList ['&'] "&amp;".data t := by
  intro c t
  by_cases h1 : c = '&'
  · subst h1
    simp only [escStage1, if_pos rfl]
    exact replaceList_head_match ['&'] "&amp;".data t (by simp)
  · simp only [escStage1, if_neg h1]
    exact replaceList_head_skip '&' [] "&amp;".data c t h1

theorem escape_step2 : ∀ c t,
    replaceList ['>'] "&gt;".data (escStage1 c ++ t)
      = escStage2 c ++ replaceList ['>'] "&gt;".data t := by
  intro c t
  by_cases h1 : c = '&'
  · subst h1
    simp only [escStage1, escStage2, if_pos rfl]
    exact replaceList_block_skip '>' [] "&gt;".data "&amp;".data t (by decide)
  · by_cases h2 : c = '>'
    · subst h2
      simp only [escStage1, escStage2, if_neg h1, if_pos rfl]
      exact replaceList_head_match ['>'] "&gt;".data t (by simp)
    · simp only [escStage1, escStage2, if_neg h1, if_neg h2]
      exact replaceList_head_skip '>' [] "&gt;".data c t h2

theorem escape_step3 : ∀ c t,
    replaceList ['<'] "&lt;".data (escStage2 c ++ t)
      = escStage3 c ++ replaceList ['<'] "&lt;".data t := by
  intro c t
  by_cases h1 : c = '&'
  · subst h1
    simp only [escStage2, escStage3, if_pos rfl]
    exact replaceList_block_skip '<' [] "&lt;".data "&amp;".data t (by decide)
  · by_cases h2 : c = '>'
    · subst h2
      simp only [escStage2, escStage3, if_neg h1, if_pos rfl]
      exact replaceList_block_skip '<' [] "&lt;".data "&gt;".data t (by decide)
    · by_cases h3 : c = '<'
      · subst h3
        simp only [escStage2, escStage3, if_neg h1, if_neg h2, if_pos rfl]
        exact replaceList_head_match ['<'] "&lt;".data t (by simp)
      · simp only [escStage2, escStage3, if_neg h1, if_neg h2, if_neg h3]
        exact replaceList_head_skip '<' [] "&lt;".data c t h3

theorem escape_step4 : ∀ c t,
    replaceList ['\x27'] "&apos;".data (escStage3 c ++ t)
      = escStage4 c ++ replaceList ['\x27'] "&apos;".data t := by
  intro c t
  by_cases h1 : c = '&'
  · subst h1
    simp only [escStage3, escStage4, if_pos rfl]
    exact replaceList_block_skip '\x27' [] "&apos;".data "&amp;".data t (by decide)
  · by_cases h2 : c = '>'
    · subst h2
      simp only [escStage3, escStage4, if_neg h1, if_pos rfl]
      exact replaceList_block_skip '\x27' [] "&apos;".data "&gt;".data t (by decide)
    · by_cases h3 : c = '<'
      · subst h3
        simp only [escStage3, escStage4, if_neg h1, if_neg h2, if_pos rfl]
        exact replaceList_block_skip '\x27' [] "&apos;".data "&lt;".data t (by decide)
      · by_cases h4 : c = '\x27'
        · subst h4
          simp only [escStage3, escStage4, if_neg h1, if_neg h2, if_neg h3,
            if_pos rfl]
          exact replaceList_head_match ['\x27'] "&apos;".data t (by simp)
        · simp only [escStage3, escStage4, if_neg h1, if_neg h2, if_neg h3,
            if_neg h4]
          exact replaceList_head_skip '\x27' [] "&apos;".data c t h4

theorem escape_step5 : ∀ c t,
    replaceList ['"'] "&quot;".data (escStage4 c ++ t)
      = escStage5 c ++ replaceList ['"'] "&quot;".data t := by
  intro c t
  by_cases h1 : c = '&'
  · subst h1
    simp only [escStage4, escStage5, if_pos rfl]
    exact replaceList_block_skip '"' [] "&quot;".data "&amp;".data t (by decide)
  · by_cases h2 : c = '>'
    · subst h2
      simp only [escStage4, escStage5, if_neg h1, if_pos rfl]
      exact replaceList_block_skip '"' [] "&quot;".data "&gt;".data t (by decide)
    · by_cases h3 : c = '<'
      · subst h3
        simp only [escStage4, escStage5, if_neg h1, if_neg h2, if_pos rfl]
        exact replaceList_block_skip '"' [] "&quot;".data "&lt;".data t (by decide)
      · by_cases h4 : c = '\x27'
        · subst h4
          simp only [escStage4, escStage5, if_neg h1, if_neg h2, if_neg h3,
            if_pos rfl]
          exact replaceList_block_skip '"' [] "&quot;".data "&apos;".data t
            (by decide)
        · by_cases h5 : c = '"'
          · subst h5
            simp only [escStage4, escStage5, if_neg h1, if_neg h2, if_neg h3,
              if_neg h4, if_pos rfl]
            exact replaceList_head_match ['"'] "&quot;".data t (by simp)
          · simp only [escStage4, escStage5, if_neg h1, if_neg h2, if_neg h3,
              if_neg h4, if_neg h5]
            exact replaceList_head_skip '"' [] "&quot;".data c t h5

/-- The five chained replacements of `escape_html` act characterwise. -/
theorem escape_html_charMap (s : List Char) :
    escape_html s = charMapConcat escStage5 s := by
  have h1 := replaceList_charMapConcat ['&'] "&amp;".data (fun c => [c])
    escStage1 escape_step1 s
  rw [charMapConcat_id] at h1
  unfold escape_html
  rw [h1,
    replaceList_charMapConcat ['>'] "&gt;".data escStage1 escStage2
      escape_step2 s,
    replaceList_charMapConcat ['<'] "&lt;".data escStage2 escStage3
      escape_step3 s,
    replaceList_charMapConcat ['\x27'] "&apos;".data escStage3 escStage4
      escape_step4 s,
    replaceList_charMapConcat ['"'] "&quot;".data escStage4 escStage5
      escape_step5 s]

theorem unescape_step1 : ∀ c t,
    replaceList "&quot;".data ['"'] (escStage5 c ++ t)
      = escStage4 c ++ replaceList "&quot;".data ['"'] t := by
  intro c t
  by_cases h1 : c = '&'
  · subst h1
    simp only [escStage4, escStage5, if_pos rfl]
    exact replaceList_block_mismatch '&' "quot;".data ['"'] '&' "amp;".data t 1
      (by decide) (by decide) (by decide) (by decide)
  · by_cases h2 : c = '>'
    · subst h2
      simp only [escStage4, escStage5, if_neg h1, if_pos rfl]
      exact replaceList_block_mismatch '&' "quot;".data ['"'] '&' "gt;".data t 1
        (by decide) (by decide) (by decide) (by decide)
    · by_cases h3 : c = '<'
      · subst h3
        simp only [escStage4, escStage5, if_neg h1, if_neg h2, if_pos rfl]
        exact replaceList_block_mismatch '&' "quot;".data ['"'] '&' "lt;".data
          t 1 (by decide) (by decide) (by decide) (by decide)
      · by_cases h4 : c = '\x27'
        · subst h4
          simp only [escStage4, escStage5, if_neg h1, if_neg h2, if_neg h3,
            if_pos rfl]
          exact replaceList_block_mismatch '&' "quot;".data ['"'] '&'
            "apos;".data t 1 (by decide) (by decide) (by decide) (by decide)
        · by_cases h5 : c = '"'
          · subst h5
            simp only [escStage4, escStage5, if_neg h1, if_neg h2, if_neg h3,
              if_neg h4, if_pos rfl]
            exact replaceList_head_match "&quot;".data ['"'] t (by decide)
          · simp only [escStage4, escStage5, if_neg h1, if_neg h2, if_neg h3,
              if_neg h4, if_neg h5]
            exact replaceList_head_skip '&' "quot;".data ['"'] c t h1

theorem unescape_step2 : ∀ c t,
    replaceList "&apos;".data ['\x27'] (escStage4 c ++ t)
      = escStage3 c ++ replaceList "&apos;".data ['\x27'] t := by
  intro c t
  by_cases h1 : c = '&'
  · subst h1
    simp only [escStage3, escStage4, if_pos rfl]
    exact replaceList_block_mismatch '&' "apos;".data ['\x27'] '&' "amp;".data
      t 2 (by decide) (by decide) (by decide) (by decide)
  · by_cases h2 : c = '>'
    · subst h2
      simp only [escStage3, escStage4, if_neg h1, if_pos rfl]
      exact replaceList_block_mismatch '&' "apos;".data ['\x27'] '&' "gt;".data
        t 1 (by decide) (by decide) (by decide) (by decide)
    · by_cases h3 : c = '<'
      · subst h3
        simp only [escStage3, escStage4, if_neg h1, if_neg h2, if_pos rfl]
        exact replaceList_block_mismatch '&' "apos;".data ['\x27'] '&'
          "lt;".data t 1 (by decide) (by decide) (by decide) (by decide)
      · by_cases h4 : c = '\x27'
        · subst h4
          simp only [escStage3, escStage4, if_neg h1, if_neg h2, if_neg h3,
            if_pos rfl]
          exact replaceList_head_match "&apos;".data ['\x27'] t (by decide)
        · simp only [escStage3, escStage4, if_neg h1, if_neg h2, if_neg h3,
            if_neg h4]
          exact replaceList_head_skip '&' "apos;".data ['\x27'] c t h1

theorem unescape_step3 : ∀ c t,
    replaceList "&lt;".data ['<'] (escStage3 c ++ t)
      = escStage2 c ++ replaceList "&lt;".data ['<'] t := by
  intro c t
  by_cases h1 : c = '&'
  · subst h1
    simp only [escStage2, escStage3, if_pos rfl]
    exact replaceList_block_mismatch '&' "lt;".data ['<'] '&' "amp;".data t 1
      (by decide) (by decide) (by decide) (by decide)
  · by_cases h2 : c = '>'
    · subst h2
      simp only [escStage2, escStage3, if_neg h1, if_pos rfl]
      exact replaceList_block_mismatch '&' "lt;".data ['<'] '&' "gt;".data t 1
        (by decide) (by decide) (by decide) (by decide)
    · by_cases h3 : c = '<'
      · subst h3
        simp only [escStage2, escStage3, if_neg h1, if_neg h2, if_pos rfl]
        exact replaceList_head_match "&lt;".data ['<'] t (by decide)
      · simp only [escStage2, escStage3, if_neg h1, if_neg h2, if_neg h3]
        exact replaceList_head_skip '&' "lt;".data ['<'] c t h1

theorem unescape_step4 : ∀ c t,
    replaceList "&gt;".data ['>'] (escStage2 c ++ t)
      = escStage1 c ++ replaceList "&gt;".data ['>'] t := by
  intro c t
  by_cases h1 : c = '&'
  · subst h1
    simp only [escStage1, escStage2, if_pos rfl]
    exact replaceList_block_mismatch '&' "gt;".data ['>'] '&' "amp;".data t 1
      (by decide) (by decide) (by decide) (by decide)
  · by_cases h2 : c = '>'
    · subst h2
      simp only [escStage1, escStage2, if_neg h1, if_pos rfl]
      exact replaceList_head_match "&gt;".data ['>'] t (by decide)
    · simp only [escStage1, escStage2, if_neg h1, if_neg h2]
      exact replaceList_head_skip '&' "gt;".data ['>'] c t h1

theorem unescape_step5 : ∀ c t,
    replaceList "&amp;".data ['&'] (escStage1 c ++ t)
      = (fun c => [c]) c ++ replaceList "&amp;".data ['&'] t := by
  intro c t
  by_cases h1 : c = '&'
  · subst h1
    simp only [escStage1, if_pos rfl]
    exact replaceList_head_match "&amp;".data ['&'] t (by decide)
  · simp only [escStage1, if_neg h1]
    exact replaceList_head_skip '&' "amp;".data ['&'] c t h1

/-- C10: for every string `s`, unescaping the HTML-escaped form gives
back `s` exactly: the five replacement chains of `unescape_html` are
applied in the inverse order of those of `escape_html`, so no
double-substitution occurs and the round trip is the identity. -/
theorem unescape_escape_html_id (s : List Char) :
    unescape_html (escape_html s) = s := by
  rw [escape_html_charMap]
  unfold unescape_html
  rw [replaceList_charMapConcat "&quot;".data ['"'] escStage5 escStage4
      unescape_step1 s,
    replaceList_charMapConcat "&apos;".data ['\x27'] escStage4 escStage3
      unescape_step2 s,
    replaceList_charMapConcat "&lt;".data ['<'] escStage3 escStage2
      unescape_step3 s,
    replaceList_charMapConcat "&gt;".data ['>'] escStage2 escStage1
      unescape_step4 s,
    replaceList_charMapConcat "&amp;".data ['&'] escStage1 (fun c => [c])
      unescape_step5 s,
    charMapConcat_id]

/-- Inno escape stage 1: brace doubled, everything else untouched. -/
def innoStage1 (c : Char) : List Char :=
  if c = '\x7b' then ['\x7b', '\x7b'] else [c]

/-- Inno escape stage 2: brace doubled and double quote dropped; this is
the full characterwise map of `escape_inno_value`. -/
def innoStage2 (c : Char) : List Char :=
  if c = '\x7b' then ['\x7b', '\x7b'] else if c = '"' then [] else [c]

theorem inno_step1 : ∀ c t,
    replaceList ['\x7b'] ['\x7b', '\x7b'] ((fun c => [c]) c ++ t)
      = innoStage1 c ++ replaceList ['\x7b'] ['\x7b', '\x7b'] t := by
  intro c t
  by_cases h1 : c = '\x7b'
  · subst h1
    simp only [innoStage1, if_pos rfl]
    exact replaceList_head_match ['\x7b'] ['\x7b', '\x7b'] t (by simp)
  · simp only [innoStage1, if_neg h1]
    exact replaceList_head_skip '\x7b' [] ['\x7b', '\x7b'] c t h1

theorem inno_step2 : ∀ c t,
    replaceList ['"'] [] (innoStage1 c ++ t)
      = innoStage2 c ++ replaceList ['"'] [] t := by
  intro c t
  by_cases h1 : c = '\x7b'
  · subst h1
    simp only [innoStage1, innoStage2, if_pos rfl]
    exact replaceList_block_skip '"' [] [] ['\x7b', '\x7b'] t (by decide)
  · by_cases h2 : c = '"'
    · subst h2
      simp only [innoStage1, innoStage2, if_neg h1, if_pos rfl]
      exact replaceList_head_match ['"'] [] t (by simp)
    · simp only [innoStage1, innoStage2, if_neg h1, if_neg h2]
      exact replaceList_head_skip '"' [] [] c t h2

/-- The two chained replacements of `escape_inno_value` act
characterwise. -/
theorem escape_inno_charMap (s : List Char) :
    escape_inno_value s = charMapConcat innoStage2 s := by
  have h1 := replaceList_charMapConcat ['\x7b'] ['\x7b', '\x7b']
    (fun c => [c]) innoStage1 inno_step1 s
  rw [charMapConcat_id] at h1
  unfold escape_inno_value
  rw [h1, replaceList_charMapConcat ['"'] [] innoStage1 innoStage2
    inno_step2 s]

theorem count_quot_inno (s : List Char) :
    (charMapConcat innoStage2 s).count '"' = 0 := by
  induction s with
  | nil => rfl
  | cons c cs ih =>
    have hc : charMapConcat innoStage2 (c :: cs)
        = innoStage2 c ++ charMapConcat innoStage2 cs := rfl
    rw [hc, List.count_append, ih]
    by_cases h1 : c = '\x7b'
    · subst h1
      simp [innoStage2]
    · by_cases h2 : c = '"'
      · subst h2
        simp [innoStage2, h1]
      · simp [innoStage2, h1, h2, List.count_cons, Ne.symm h2]

theorem count_brace_inno (s : List Char) :
    (charMapConcat innoStage2 s).count '\x7b' = 2 * s.count '\x7b' := by
  induction s with
  | nil => rfl
  | cons c cs ih =>
    have hc : charMapConcat innoStage2 (c :: cs)
        = innoStage2 c ++ charMapConcat innoStage2 cs := rfl
    rw [hc, List.count_append, ih, List.count_cons]
    by_cases h1 : c = '\x7b'
    · subst h1
      simp [innoStage2, List.count_cons]
      omega
    · by_cases h2 : c = '"'
      · subst h2
        simp [innoStage2, h1, Ne.symm h1]
      · simp [innoStage2, h1, h2, List.count_cons, Ne.symm h1]

/-- C6: for every input string, including the empty one, the output of
the installer-script escaping function `escape_inno_value` contains no
double-quote character, and every literal opening brace of the input
appears doubled in the output (the output holds exactly twice as many
opening braces as the input). -/
theorem escape_inno_value_spec (s : List Char) :
    (escape_inno_value s).count '"' = 0 ∧
    (escape_inno_value s).count '\x7b' = 2 * s.count '\x7b' := by
  rw [escape_inno_charMap]
  exact ⟨count_quot_inno s, count_brace_inno s⟩

/-- The literal opening tag of the title regex in `get_project_title`. -/
def titleOpen : List Char := "<title>".data

/-- The literal closing tag of the title regex in `get_project_title`. -/
def titleClose : List Char := "</title>".data

/-- Greedy group of Python `re.search` for the tail of the pattern
`(.*)</title>`: the longest newline-free prefix of the input that is
immediately followed by the closing tag; `none` when no such split
exists. -/
def greedyGroup : List Char → Option (List Char)
  | [] => none
  | c :: cs =>
    if c = '\n' then none
    else
      match greedyGroup cs with
      | some t => some (c :: t)
      | none => if titleClose.isPrefixOf (c :: cs) then some [] else none

/-- Leftmost search of Python `re.search` for the whole pattern
`<title>(.*)</title>`: at the first position where the opening tag
matches and a greedy group completes, return that group. -/
def search_title : List Char → Option (List Char)
  | [] => none
  | c :: cs =>
    if titleOpen.isPrefixOf (c :: cs) then
      match greedyGroup ((c :: cs).drop titleOpen.length) with
      | some t => some t
      | none => search_title cs
    else search_title cs

/-- Embeds `get_project_title` (app.py lines 83-87) on the contents of
the entry HTML document: regex search for `<title>(.*)</title>` (the dot
does not match a newline, the group is greedy), then HTML-unescape the
group; `none` models the raised exception when there is no match. -/
def get_project_title (contents : List Char) : Option (List Char) :=
  (search_title contents).map unescape_html

theorem isPrefixOf_head_eq (a : Char) (ps : List Char) (x : Char)
    (rest : List Char) (h : (a :: ps).isPrefixOf (x :: rest) = true) :
    x = a := by
  rcases List.isPrefixOf_iff_prefix.mp h with ⟨u, hu⟩
  have := congrArg (fun l => l.head?) hu
  simpa using this.symm

/-- If every match of the closing tag lies beyond a newline, the greedy
group fails. -/
theorem greedyGroup_none (u : List Char)
    (h : ∀ j, titleClose.isPrefixOf (u.drop j) = true → '\n' ∈ u.take j) :
    greedyGroup u = none := by
  induction u with
  | nil => rfl
  | cons c cs ih =>
    by_cases hc : c = '\n'
    · simp [greedyGroup, hc]
    · have h0 : titleClose.isPrefixOf (c :: cs) = false := by
        apply Bool.eq_false_iff.mpr
        intro hp
        have := h 0 (by simpa using hp)
        simp at this
      have hcs : greedyGroup cs = none := by
        apply ih
        intro j hj
        have hmem := h (j + 1) (by simpa [List.drop_succ_cons] using hj)
        rw [List.take_succ_cons] at hmem
        rcases List.mem_cons.mp hmem with h1 | h1
        · exact absurd h1.symm hc
        · exact h1
      simp [greedyGroup, hc, hcs, h0]

/-- A segment without an opening angle bracket followed by a tail whose
closing-tag matches all lie beyond a newline admits no greedy group. -/
theorem greedyGroup_append_none (A post : List Char) (hA : '<' ∉ A)
    (hpost : ∀ j, titleClose.isPrefixOf (post.drop j) = true
      → '\n' ∈ post.take j) :
    greedyGroup (A ++ post) = none := by
  apply greedyGroup_none
  intro j hj
  by_cases hlt : j < A.length
  · exfalso
    rw [List.drop_append_of_le_length (Nat.le_of_lt hlt),
      List.drop_eq_getElem_cons hlt, List.cons_append] at hj
    have : A[j] = '<' := isPrefixOf_head_eq '<' "/title>".data _ _ hj
    exact hA (this ▸ A.getElem_mem hlt)
  · obtain ⟨j2, rfl⟩ := Nat.exists_eq_add_of_le (Nat.le_of_not_lt hlt)
    rw [List.drop_append] at hj
    rw [List.take_append]
    exact List.mem_append_right A (hpost j2 hj)

theorem greedyGroup_cons (c : Char) (cs : List Char) :
    greedyGroup (c :: cs)
      = if c = '\n' then none
        else
          match greedyGroup cs with
          | some t => some (c :: t)
          | none => if titleClose.isPrefixOf (c :: cs) then some [] else none
      := rfl

/-- The greedy group of a well-formed single-title segment is exactly the
text between the tags. -/
theorem greedyGroup_exact (post : List Char)
    (hpost : ∀ j, titleClose.isPrefixOf (post.drop j) = true
      → '\n' ∈ post.take j) :
    ∀ t : List Char, '\n' ∉ t
      → greedyGroup (t ++ titleClose ++ post) = some t := by
  intro t
  induction t with
  | nil =>
    intro _
    have hnone : greedyGroup ("/title>".data ++ post) = none :=
      greedyGroup_append_none "/title>".data post (by decide) hpost
    have hpre2 : titleClose.isPrefixOf ('<' :: ("/title>".data ++ post))
        = true :=
      List.isPrefixOf_iff_prefix.mpr (List.prefix_append titleClose post)
    show greedyGroup ('<' :: ("/title>".data ++ post)) = some []
    rw [greedyGroup_cons, if_neg (by decide : ¬ ('<' = '\n')), hnone]
    show (if titleClose.isPrefixOf ('<' :: ("/title>".data ++ post)) = true
      then some ([] : List Char) else none) = some []
    rw [if_pos hpre2]
  | cons c t2 ih =>
    intro ht
    have hc : ¬ c = '\n' := fun hh => ht (hh ▸ List.mem_cons_self c t2)
    have ih2 := ih (fun hx => ht (List.mem_cons_of_mem c hx))
    have hshape : (c :: t2) ++ titleClose ++ post
        = c :: (t2 ++ titleClose ++ post) := by simp
    rw [hshape, greedyGroup_cons, if_neg hc, ih2]

/-- When the opening tag occurs nowhere in the document, the regex search
fails. -/
theorem search_title_none (s : List Char) (h : ¬ titleOpen <:+: s) :
    search_title s = none := by
  induction s with
  | nil => rfl
  | cons c cs ih =>
    have hpre : titleOpen.isPrefixOf (c :: cs) = false := by
      apply Bool.eq_false_iff.mpr
      intro hp
      exact h (List.isPrefixOf_iff_prefix.mp hp).isInfix
    have ih2 := ih (fun hinf => h (List.infix_cons hinf))
    simp [search_title, hpre, ih2]

/-- On a document made of a bracket-free prefix, a single title element
with newline-free contents and a tail whose closing-tag matches lie
beyond a newline, the regex search returns the element's contents. -/
theorem search_title_found (t post : List Char) (ht : '\n' ∉ t)
    (hpost : ∀ j, titleClose.isPrefixOf (post.drop j) = true
      → '\n' ∈ post.take j) :
    ∀ pre : List Char, '<' ∉ pre →
      search_title (pre ++ (titleOpen ++ (t ++ titleClose ++ post)))
        = some t := by
  have hsc : ∀ (c : Char) (cs : List Char), search_title (c :: cs)
      = if titleOpen.isPrefixOf (c :: cs) then
          (match greedyGroup ((c :: cs).drop titleOpen.length) with
           | some g => some g
           | none => search_title cs)
        else search_title cs := fun c cs => rfl
  intro pre
  induction pre with
  | nil =>
    intro _
    have hpre2 : titleOpen.isPrefixOf
        ('<' :: ("title>".data ++ (t ++ titleClose ++ post))) = true :=
      List.isPrefixOf_iff_prefix.mpr (List.prefix_append titleOpen _)
    have hdrop : ('<' :: ("title>".data ++ (t ++ titleClose ++ post))).drop
        titleOpen.length = t ++ titleClose ++ post := rfl
    have hgrp := greedyGroup_exact post hpost t ht
    show search_title ('<' :: ("title>".data ++ (t ++ titleClose ++ post)))
      = some t
    rw [hsc, if_pos hpre2, hdrop, hgrp]
  | cons c pre2 ih =>
    intro hpre
    have hc : c ≠ '<' := fun hh => hpre (hh ▸ List.mem_cons_self c pre2)
    have hopen : titleOpen.isPrefixOf
        (c :: (pre2 ++ (titleOpen ++ (t ++ titleClose ++ post)))) = false := by
      apply Bool.eq_false_iff.mpr
      intro hp
      exact hc (isPrefixOf_head_eq '<' "title>".data c _ hp)
    have ih2 := ih (fun hx => hpre (List.mem_cons_of_mem c hx))
    have hshape : (c :: pre2) ++ (titleOpen ++ (t ++ titleClose ++ post))
        = c :: (pre2 ++ (titleOpen ++ (t ++ titleClose ++ post))) := by simp
    rw [hshape, hsc, if_neg (Bool.eq_false_iff.mp hopen), ih2]

/-- C8: for every entry HTML document with no title tag, title extraction
fails (`TitleNotFound`); when a title element is present — here: a
document consisting of a prefix without an opening angle bracket, the
title element with newline-free contents and a remainder whose closing
tags, if any, lie beyond a newline — the returned title is the element's
contents, HTML-unescaped. -/
theorem get_project_title_spec :
    (∀ s : List Char, ¬ titleOpen <:+: s → get_project_title s = none) ∧
    (∀ pre t post : List Char, '<' ∉ pre → '\n' ∉ t →
      (∀ j, titleClose.isPrefixOf (post.drop j) = true → '\n' ∈ post.take j) →
      get_project_title (pre ++ (titleOpen ++ (t ++ titleClose ++ post)))
        = some (unescape_html t)) := by
  constructor
  · intro s hs
    unfold get_project_title
    rw [search_title_none s hs]
    rfl
  · intro pre t post hpre ht hpost
    unfold get_project_title
    rw [search_title_found t post ht hpost pre hpre]
    rfl

/-- Witness for C8 at a concrete document without a title tag and a
concrete document with one. -/
theorem get_project_title_spec_witness :
    get_project_title "no html title here".data = none ∧
    get_project_title "xy<title>Demo &amp; App</title>\n".data
      = some "Demo & App".data := by
  constructor
  · exact get_project_title_spec.1 "no html title here".data (by decide)
  · have hpost : ∀ j, titleClose.isPrefixOf (['\n'].drop j) = true
        → '\n' ∈ ['\n'].take j := by
      intro j hj
      match j with
      | 0 => exact absurd hj (by decide)
      | Nat.succ n =>
        rw [List.drop_succ_cons, List.drop_nil] at hj
        exact absurd hj (by decide)
    have h2 := get_project_title_spec.2 "xy".data "Demo &amp; App".data
      ['\n'] (by decide) (by decide) hpost
    have hdoc : "xy<title>Demo &amp; App</title>\n".data
        = "xy".data ++ (titleOpen ++ ("Demo &amp; App".data ++ titleClose
          ++ ['\n'])) := by decide
    rw [hdoc, h2]
    rfl

/-- Embeds `get_executable_name` (app.py lines 18-22): scan the directory
listing in order and return the first entry whose name ends in `.exe`
and is not the reserved helper binary `notification_helper.exe`; `none`
models the raised `Cannot find executable` exception. -/
def get_executable_name (files : List (List Char)) : Option (List Char) :=
  match files with
  | [] => none
  | f :: rest =>
    if ".exe".data.isSuffixOf f && f != "notification_helper.exe".data
    then some f
    else get_executable_name rest

theorem get_executable_name_cons (f0 : List Char) (rest : List (List Char)) :
    get_executable_name (f0 :: rest)
      = if ".exe".data.isSuffixOf f0 && f0 != "notification_helper.exe".data
        then some f0 else get_executable_name rest := rfl

/-- C4: the executable locator returns the first direct child whose name
ends with `.exe` and is not the reserved helper-binary name, and fails
(`ExecutableNotFound`) exactly when no child qualifies — in particular a
listing whose only `.exe` entry is the helper binary yields a failure. -/
theorem get_executable_name_spec (files : List (List Char)) :
    (get_executable_name files = none ↔
      ∀ f ∈ files, ".exe".data.isSuffixOf f = true
        → f = "notification_helper.exe".data) ∧
    (∀ f, get_executable_name files = some f →
      f ∈ files ∧ ".exe".data.isSuffixOf f = true
        ∧ f ≠ "notification_helper.exe".data) ∧
    (∀ l1 f l2, files = l1 ++ f :: l2 →
      (∀ g ∈ l1, ".exe".data.isSuffixOf g = true
        → g = "notification_helper.exe".data) →
      ".exe".data.isSuffixOf f = true →
      f ≠ "notification_helper.exe".data →
      get_executable_name files = some f) := by
  induction files with
  | nil =>
    refine ⟨by simp [get_executable_name], ?_, ?_⟩
    · intro f h
      simp [get_executable_name] at h
    · intro l1 f l2 h
      exact absurd h (by simp)
  | cons f0 rest ih =>
    obtain ⟨ih1, ih2, ih3⟩ := ih
    by_cases hcnd : (".exe".data.isSuffixOf f0
        && f0 != "notification_helper.exe".data) = true
    · have hsplit : ".exe".data.isSuffixOf f0 = true
          ∧ f0 ≠ "notification_helper.exe".data := by
        simpa [Bool.and_eq_true, bne_iff_ne] using hcnd
      obtain ⟨hs0, hn0⟩ := hsplit
      refine ⟨?_, ?_, ?_⟩
      · rw [get_executable_name_cons, if_pos hcnd]
        constructor
        · intro h
          exact absurd h (by simp)
        · intro hall
          exact absurd (hall f0 (List.mem_cons_self f0 rest) hs0) hn0
      · intro f hf
        rw [get_executable_name_cons, if_pos hcnd] at hf
        have : f0 = f := Option.some.inj hf
        subst this
        exact ⟨List.mem_cons_self f0 rest, hs0, hn0⟩
      · intro l1 f l2 heq hl1 hsf hnf
        rw [get_executable_name_cons, if_pos hcnd]
        cases l1 with
        | nil =>
          have hinj := List.cons.inj (by simpa using heq :
            f0 :: rest = f :: l2)
          rw [hinj.1]
        | cons g l1b =>
          have hinj := List.cons.inj (by simpa using heq)
          have hg : f0 = g := hinj.1
          have := hl1 g (List.mem_cons_self g l1b) (hg ▸ hs0)
          exact absurd (hg ▸ this) hn0
    · have hfail : ¬ (".exe".data.isSuffixOf f0 = true
          ∧ f0 ≠ "notification_helper.exe".data) := by
        intro hx
        exact hcnd (by simp [Bool.and_eq_true, bne_iff_ne, hx.1, hx.2])
      refine ⟨?_, ?_, ?_⟩
      · rw [get_executable_name_cons, if_neg hcnd]
        constructor
        · intro h f hf hsf
          rcases List.mem_cons.mp hf with h1 | h1
          · subst h1
            by_contra hne
            exact hfail ⟨hsf, hne⟩
          · exact ih1.mp h f h1 hsf
        · intro hall
          exact ih1.mpr (fun f hf hsf =>
            hall f (List.mem_cons_of_mem f0 hf) hsf)
      · intro f hf
        rw [get_executable_name_cons, if_neg hcnd] at hf
        obtain ⟨hm, hs, hn⟩ := ih2 f hf
        exact ⟨List.mem_cons_of_mem f0 hm, hs, hn⟩
      · intro l1 f l2 heq hl1 hsf hnf
        rw [get_executable_name_cons, if_neg hcnd]
        cases l1 with
        | nil =>
          have hinj := List.cons.inj (by simpa using heq)
          exact absurd ⟨hinj.1 ▸ hsf, hinj.1 ▸ hnf⟩ hfail
        | cons g l1b =>
          have hinj := List.cons.inj (by simpa using heq)
          exact ih3 l1b f l2 hinj.2
            (fun x hx => hl1 x (List.mem_cons_of_mem g hx)) hsf hnf

/-- Witness for C4: a listing where the helper binary precedes the real
executable, and a listing containing only the helper binary. -/
theorem get_executable_name_spec_witness :
    get_executable_name ["data".data, "notification_helper.exe".data,
      "app.exe".data, "other.exe".data] = some "app.exe".data ∧
    get_executable_name ["notification_helper.exe".data] = none := by
  constructor
  · exact (get_executable_name_spec _).2.2
      ["data".data, "notification_helper.exe".data] "app.exe".data
      ["other.exe".data] rfl (by decide) (by decide) (by decide)
  · exact (get_executable_name_spec _).1.mpr (by decide)

/-- A file system: an association list from full paths to file contents,
most recent write first. -/
structure FS where
  files : List (List Char × List Char)

/-- Read a file: the contents stored under the path, if any. -/
def FS.read (fs : FS) (p : List Char) : Option (List Char) :=
  (fs.files.find? (fun e => e.1 == p)).map (fun e => e.2)

/-- Write a file, replacing any previous contents under the path. -/
def FS.write (fs : FS) (p v : List Char) : FS :=
  ⟨(p, v) :: fs.files.filter (fun e => !(e.1 == p))⟩

/-- Existence test, the model of `os.path.exists`. -/
def FS.pathExists (fs : FS) (p : List Char) : Bool :=
  fs.files.any (fun e => e.1 == p)

/-- The empty file system. -/
def FS.empty : FS := ⟨[]⟩

/-- Model of `os.path.join` with a single separator convention. -/
def joinPath (a b : List Char) : List Char := a ++ '/' :: b

theorem find?_filter_imp {α : Type} (pr g : α → Bool)
    (himp : ∀ a, pr a = true → g a = true) :
    ∀ l : List α, (l.filter g).find? pr = l.find? pr := by
  intro l
  induction l with
  | nil => rfl
  | cons a l ih =>
    by_cases hpa : pr a = true
    · rw [List.filter_cons_of_pos (himp a hpa),
        List.find?_cons_of_pos (List.filter g l) hpa,
        List.find?_cons_of_pos l hpa]
    · by_cases hga : g a = true
      · rw [List.filter_cons_of_pos hga,
          List.find?_cons_of_neg (List.filter g l) hpa,
          List.find?_cons_of_neg l hpa, ih]
      · rw [List.filter_cons_of_neg (by simpa using hga),
          List.find?_cons_of_neg l hpa, ih]

theorem FS.read_write_same (fs : FS) (p v : List Char) :
    (fs.write p v).read p = some v := by
  unfold FS.read FS.write
  dsimp only
  rw [List.find?_cons_of_pos (List.filter (fun e => !(e.1 == p)) fs.files)
    (by simp)]
  rfl

theorem FS.read_write_other (fs : FS) (p v q : List Char) (h : q ≠ p) :
    (fs.write p v).read q = fs.read q := by
  unfold FS.read FS.write
  dsimp only
  rw [List.find?_cons_of_neg (List.filter (fun e => !(e.1 == p)) fs.files)
      (by simp [Ne.symm h]),
    find?_filter_imp (fun e => e.1 == q) (fun e => !(e.1 == p))
      (by intro a ha; simp at ha; simp [ha, h]) fs.files]

/-- The window-configuration block of a package manifest. -/
structure WindowConfig where
  icon : List Char

/-- A decoded `package.json` manifest: a name, and optionally a window
block carrying an icon override (NW.js builds). -/
structure PackageJson where
  name : List Char
  window : Option WindowConfig

/-- Mirrors app.py lines 41-46 inside `get_icon_as_ico`: the icon is
normally `icon.png`, except when the manifest has a `window` block, in
which case that block's `icon` entry names it. -/
def resolve_icon_name (pj : PackageJson) : List Char :=
  match pj.window with
  | some w => w.icon
  | none => "icon.png".data

/-- Modelled from the documented contract of the image library: the ICO
serialization of a decoded image, opaque to this program. -/
def pil_ico_encode (image : List Char) : List Char :=
  "ICO:".data ++ image

/-- Embeds `get_icon_as_ico` (app.py lines 40-51).  The decoded manifest
is passed as `pj` (`parse_package_json` is a JSON-library call); opening
a missing source image raises, modelled as `none`; on success the
converted icon is written at `<original>.ico` next to the source and
that path is returned together with the updated file system. -/
def get_icon_as_ico (pj : PackageJson) (fs : FS) (path : List Char) :
    Option (List Char × FS) :=
  match fs.read (joinPath path (resolve_icon_name pj)) with
  | none => none
  | some image =>
    some (joinPath path (resolve_icon_name pj) ++ ".ico".data,
      fs.write (joinPath path (resolve_icon_name pj) ++ ".ico".data)
        (pil_ico_encode image))

/-- C5: the icon extractor resolves the source icon to the literal
default `icon.png` when the manifest has no window/icon override and to
the override name when one is present (regardless of what else exists on
disk); it writes the converted icon at `<original>.ico` next to the
source and leaves the source in place. -/
theorem get_icon_as_ico_spec (pj : PackageJson) (fs : FS)
    (path img : List Char) :
    (pj.window = none → resolve_icon_name pj = "icon.png".data) ∧
    (∀ w, pj.window = some w → resolve_icon_name pj = w.icon) ∧
    (fs.read (joinPath path (resolve_icon_name pj)) = some img →
      get_icon_as_ico pj fs path
        = some (joinPath path (resolve_icon_name pj) ++ ".ico".data,
            fs.write (joinPath path (resolve_icon_name pj) ++ ".ico".data)
              (pil_ico_encode img)) ∧
      ∀ out fs2, get_icon_as_ico pj fs path = some (out, fs2) →
        fs2.read (joinPath path (resolve_icon_name pj)) = some img ∧
        fs2.read out = some (pil_ico_encode img)) := by
  refine ⟨?_, ?_, ?_⟩
  · intro h
    unfold resolve_icon_name
    rw [h]
  · intro w h
    unfold resolve_icon_name
    rw [h]
  · intro h
    have heq : get_icon_as_ico pj fs path
        = some (joinPath path (resolve_icon_name pj) ++ ".ico".data,
            fs.write (joinPath path (resolve_icon_name pj) ++ ".ico".data)
              (pil_ico_encode img)) := by
      unfold get_icon_as_ico
      rw [h]
    refine ⟨heq, ?_⟩
    intro out fs2 hout
    rw [heq] at hout
    have hinj := Prod.mk.inj (Option.some.inj hout)
    have hsrc : joinPath path (resolve_icon_name pj)
        ≠ joinPath path (resolve_icon_name pj) ++ ".ico".data := by
      intro hh
      have := congrArg List.length hh
      simp at this
    constructor
    · rw [← hinj.2, FS.read_write_other _ _ _ _ hsrc]
      exact h
    · rw [← hinj.2, ← hinj.1, FS.read_write_same]

/-- Witness for C5: default resolution, override resolution (with the
default file also present) and a concrete conversion run. -/
theorem get_icon_as_ico_spec_witness :
    resolve_icon_name ⟨"demo".data, none⟩ = "icon.png".data ∧
    resolve_icon_name ⟨"demo".data, some ⟨"custom.png".data⟩⟩
      = "custom.png".data ∧
    get_icon_as_ico ⟨"demo".data, none⟩
      (FS.write FS.empty (joinPath "root".data "icon.png".data) "png".data)
      "root".data
      = some (joinPath "root".data "icon.png".data ++ ".ico".data,
          FS.write
            (FS.write FS.empty (joinPath "root".data "icon.png".data)
              "png".data)
            (joinPath "root".data "icon.png".data ++ ".ico".data)
            (pil_ico_encode "png".data)) := by
  refine ⟨?_, ?_, ?_⟩
  · exact (get_icon_as_ico_spec ⟨"demo".data, none⟩ FS.empty "root".data
      "png".data).1 rfl
  · exact (get_icon_as_ico_spec ⟨"demo".data, some ⟨"custom.png".data⟩⟩
      FS.empty "root".data "png".data).2.1 ⟨"custom.png".data⟩ rfl
  · exact ((get_icon_as_ico_spec ⟨"demo".data, none⟩
      (FS.write FS.empty (joinPath "root".data "icon.png".data) "png".data)
      "root".data "png".data).2.2 (by decide)).1

/-- Embeds the Inno Setup script template of `create_installer` (app.py
lines 105-137): every interpolated value passes through
`escape_inno_value`; the doubled braces of the Python f-string render as
single literal braces here. -/
def render_inno_config (title package_name executable_file version icon
    output_directory output_name : List Char) : List Char :=
  "; Automatically generated by TurboWarp. Avoid changing by hand.\n\n".data
  ++ "#define TITLE \"".data ++ escape_inno_value title ++ "\"\n".data
  ++ "#define PACKAGE_NAME \"".data ++ escape_inno_value package_name
  ++ "\"\n".data
  ++ "#define EXECUTABLE \"".data ++ escape_inno_value executable_file
  ++ "\"\n".data
  ++ "#define VERSION \"".data ++ escape_inno_value version ++ "\"\n\n".data
  ++ "[Setup]\nAppName=\x7b#PACKAGE_NAME\x7d\nAppVersion=\x7b#VERSION\x7d\nWizardStyle=classic\n".data
  ++ "DefaultDirName=\x7bautopf\x7d\\\x7b#PACKAGE_NAME\x7d\nUninstallDisplayIcon=\x7bapp\x7d\\\x7b#EXECUTABLE\x7d\nDefaultGroupName=\x7b#TITLE\x7d\n".data
  ++ "PrivilegesRequired=lowest\nCompression=lzma2\nSolidCompression=yes\n".data
  ++ "OutputDir=".data ++ escape_inno_value output_directory ++ "\n".data
  ++ "OutputBaseFilename=".data ++ escape_inno_value output_name
  ++ "\n".data
  ++ "SetupIconFile=".data ++ escape_inno_value icon ++ "\n\n".data
  ++ "[Files]\nSource: \"*\"; DestDir: \"\x7bapp\x7d\"; Excludes: \"*.iss\"; Flags: recursesubdirs ignoreversion\n\n".data
  ++ "[Icons]\nName: \"\x7bgroup\x7d\\\x7b#TITLE\x7d\"; Filename: \"\x7bapp\x7d\\\x7b#EXECUTABLE\x7d\"\n\n".data
  ++ "[Run]\nFilename: \"\x7bapp\x7d\\\x7b#EXECUTABLE\x7d\"; Description: \"Launch application\"; Flags: postinstall nowait skipifsilent\n\n".data
  ++ "[UninstallDelete]\nType: filesandordirs; Name: \"\x7blocalappdata\x7d\\\x7b#PACKAGE_NAME\x7d\"\n".data

/-- Embeds `create_installer` (app.py lines 96-150).  The directory
listing of `path` is supplied by the caller (`os.listdir`), the decoded
manifest as `pj` (`parse_package_json`), and the external Inno Setup
compiler as `iscc`, which maps the file system and the script path to
the file system after a successful run, or to `none` for a non-zero
exit (`run_command` raises).  Each earlier fallible step propagates its
failure; at the end the expected output file must exist under
`<path>/Generated Installer/<name> Setup.exe` or the run fails. -/
def create_installer (listing : List (List Char)) (pj : PackageJson)
    (fs : FS) (path : List Char) (iscc : FS → List Char → Option FS) :
    Option (List Char × FS) :=
  match get_executable_name listing with
  | none => none
  | some executable_file =>
    match fs.read (joinPath path "index.html".data) with
    | none => none
    | some index_html =>
      match get_project_title index_html with
      | none => none
      | some title =>
        match get_icon_as_ico pj fs path with
        | none => none
        | some (icon, fs1) =>
          let inno_config := render_inno_config title pj.name
            executable_file "1.0.0".data icon "Generated Installer".data
            (pj.name ++ " Setup".data)
          let inno_config_path := joinPath path "config.iss".data
          match iscc (fs1.write inno_config_path inno_config)
              inno_config_path with
          | none => none
          | some fs3 =>
            let expected_output_file :=
              joinPath (joinPath path "Generated Installer".data)
                ((pj.name ++ " Setup".data) ++ ".exe".data)
            if fs3.pathExists expected_output_file
            then some (expected_output_file, fs3) else none

/-- C7: after the external installer compiler runs, the generator checks
for the output file at the deterministic path
`<path>/Generated Installer/<packageName> Setup.exe`, returns that path
(with the resulting file system) when the file exists, and fails
(`InstallerBuildFailed`) when it is absent. -/
theorem create_installer_spec (listing : List (List Char))
    (pj : PackageJson) (fs : FS) (path : List Char)
    (iscc : FS → List Char → Option FS)
    (exe idx title icon : List Char) (fs1 fs3 : FS)
    (h1 : get_executable_name listing = some exe)
    (h2 : fs.read (joinPath path "index.html".data) = some idx)
    (h3 : get_project_title idx = some title)
    (h4 : get_icon_as_ico pj fs path = some (icon, fs1))
    (h5 : iscc (fs1.write (joinPath path "config.iss".data)
      (render_inno_config title pj.name exe "1.0.0".data icon
        "Generated Installer".data (pj.name ++ " Setup".data)))
      (joinPath path "config.iss".data) = some fs3) :
    (fs3.pathExists (joinPath (joinPath path "Generated Installer".data)
        (pj.name ++ " Setup.exe".data)) = true →
      create_installer listing pj fs path iscc
        = some (joinPath (joinPath path "Generated Installer".data)
            (pj.name ++ " Setup.exe".data), fs3)) ∧
    (fs3.pathExists (joinPath (joinPath path "Generated Installer".data)
        (pj.name ++ " Setup.exe".data)) = false →
      create_installer listing pj fs path iscc = none) := by
  have hname : (pj.name ++ " Setup".data) ++ ".exe".data
      = pj.name ++ " Setup.exe".data := by
    rw [List.append_assoc]
    rfl
  have hrun : create_installer listing pj fs path iscc
      = if fs3.pathExists (joinPath (joinPath path
          "Generated Installer".data) (pj.name ++ " Setup.exe".data))
        then some (joinPath (joinPath path "Generated Installer".data)
            (pj.name ++ " Setup.exe".data), fs3)
        else none := by
    unfold create_installer
    simp only [h1, h2, h3, h4]
    simp only [h5]
    simp only [hname]
  constructor
  · intro hex
    rw [hrun, if_pos hex]
  · intro hex
    rw [hrun, if_neg (by simp [hex])]

/-- Witness for C7: a concrete run whose compiler deposits the expected
file, so the generator returns the deterministic output path. -/
theorem create_installer_spec_witness :
    create_installer ["app.exe".data] ⟨"demo".data, none⟩
      (FS.write (FS.write FS.empty (joinPath "root".data "icon.png".data)
        "png".data) (joinPath "root".data "index.html".data)
        "<title>Demo</title>".data)
      "root".data
      (fun _ _ => some (FS.write FS.empty
        (joinPath (joinPath "root".data "Generated Installer".data)
          ("demo".data ++ " Setup.exe".data)) "setup".data))
      = some (joinPath (joinPath "root".data "Generated Installer".data)
          ("demo".data ++ " Setup.exe".data),
        FS.write FS.empty
          (joinPath (joinPath "root".data "Generated Installer".data)
            ("demo".data ++ " Setup.exe".data)) "setup".data) :=
  (create_installer_spec ["app.exe".data] ⟨"demo".data, none⟩
    (FS.write (FS.write FS.empty (joinPath "root".data "icon.png".data)
      "png".data) (joinPath "root".data "index.html".data)
      "<title>Demo</title>".data)
    "root".data
    (fun _ _ => some (FS.write FS.empty
      (joinPath (joinPath "root".data "Generated Installer".data)
        ("demo".data ++ " Setup.exe".data)) "setup".data))
    "app.exe".data "<title>Demo</title>".data "Demo".data
    (joinPath "root".data "icon.png".data ++ ".ico".data)
    (FS.write (FS.write (FS.write FS.empty
      (joinPath "root".data "icon.png".data) "png".data)
      (joinPath "root".data "index.html".data) "<title>Demo</title>".data)
      (joinPath "root".data "icon.png".data ++ ".ico".data)
      (pil_ico_encode "png".data))
    (FS.write FS.empty
      (joinPath (joinPath "root".data "Generated Installer".data)
        ("demo".data ++ " Setup.exe".data)) "setup".data)
    rfl rfl rfl rfl rfl).1 rfl

/-- A zip archive: the ordered entry list, each entry a slash-separated
name paired with the file contents. -/
structure ZipArchive where
  entries : List (List Char × List Char)

/-- Embeds `get_zip_inner_folder_name` (app.py lines 152-154): the first
entry's name up to the first separator; `none` models the `IndexError`
raised on an archive with zero entries. -/
def get_zip_inner_folder_name (z : ZipArchive) : Option (List Char) :=
  match z.entries with
  | [] => none
  | e :: _ => some (e.1.takeWhile (fun c => c != '/'))

/-- After `extractall` into a destination, a path exists there exactly
when some entry is that path or lies below it. -/
def zip_path_exists (z : ZipArchive) (p : List Char) : Bool :=
  z.entries.any (fun e => e.1 == p || (p ++ ['/']).isPrefixOf e.1)

/-- Embeds `verify_folder` (app.py lines 179-181) over the extracted
archive: the marker file `resources.pak`, used by both Electron and
NW.js, must exist directly under the folder. -/
def verify_folder (z : ZipArchive) (folder : List Char) : Bool :=
  zip_path_exists z (joinPath folder "resources.pak".data)

/-- Embeds `ExtractWorker._run` (app.py lines 211-218): extract
everything, derive the root folder from the first entry, then require
the marker file under that root; `none` models both failure modes
(`IndexError` on an empty archive, `Invalid zip selected` otherwise). -/
def extract_worker_run (z : ZipArchive) : Option (List Char) :=
  match get_zip_inner_folder_name z with
  | none => none
  | some root => if verify_folder z root then some root else none

/-- C3: archive validation fails exactly on an archive with zero entries
or on one whose extraction lacks the marker file `resources.pak` under
the root directory derived from the first entry's leading path segment;
otherwise it succeeds and returns that root directory name. -/
theorem extract_worker_run_spec (z : ZipArchive) :
    (extract_worker_run z = none ↔
      z.entries = [] ∨
      ∃ e rest, z.entries = e :: rest ∧
        verify_folder z (e.1.takeWhile (fun c => c != '/')) = false) ∧
    (∀ e rest, z.entries = e :: rest →
      verify_folder z (e.1.takeWhile (fun c => c != '/')) = true →
      extract_worker_run z = some (e.1.takeWhile (fun c => c != '/'))) := by
  obtain ⟨entries⟩ := z
  cases entries with
  | nil =>
    constructor
    · simp [extract_worker_run, get_zip_inner_folder_name]
    · intro e rest h
      exact absurd h (by simp)
  | cons e rest =>
    have hrun : extract_worker_run ⟨e :: rest⟩
        = if verify_folder ⟨e :: rest⟩ (e.1.takeWhile (fun c => c != '/'))
          then some (e.1.takeWhile (fun c => c != '/')) else none := rfl
    constructor
    · rw [hrun]
      by_cases hv : verify_folder ⟨e :: rest⟩
          (e.1.takeWhile (fun c => c != '/')) = true
      · rw [if_pos hv]
        constructor
        · intro h
          exact absurd h (by simp)
        · intro h
          rcases h with h | ⟨e2, rest2, heq, hvf⟩
          · exact absurd h (by simp)
          · have hinj := List.cons.inj heq
            rw [← hinj.1] at hvf
            rw [hv] at hvf
            exact absurd hvf (by simp)
      · rw [if_neg hv]
        constructor
        · intro _
          exact Or.inr ⟨e, rest, rfl, Bool.eq_false_iff.mpr hv⟩
        · intro _
          rfl
    · intro e2 rest2 heq hvf
      have hinj := List.cons.inj heq
      rw [← hinj.1] at hvf
      rw [hrun, if_pos hvf, hinj.1]

/-- Witness for C3: a one-entry archive whose root folder holds the
marker file validates and returns the root name. -/
theorem extract_worker_run_spec_witness :
    extract_worker_run ⟨[("proj/resources.pak".data, "pak".data)]⟩
      = some "proj".data := by
  have h := (extract_worker_run_spec
      ⟨[("proj/resources.pak".data, "pak".data)]⟩).2
    ("proj/resources.pak".data, "pak".data) [] rfl (by decide)
  rw [h]
  rfl

theorem filterMap_if_eq_filter_map {α β : Type} (p : α → Bool) (g : α → β) :
    ∀ l : List α,
      l.filterMap (fun a => if p a then some (g a) else none)
        = (l.filter p).map g := by
  intro l
  induction l with
  | nil => rfl
  | cons a l ih =>
    by_cases hpa : p a = true
    · rw [List.filterMap_cons_some (by rw [if_pos hpa]),
        List.filter_cons_of_pos hpa, List.map_cons, ih]
    · rw [List.filterMap_cons_none (by rw [if_neg hpa]),
        List.filter_cons_of_neg (by simpa using hpa), ih]

/-- Modelled from the documented contract of `shutil.make_archive` with
the zip format: the archive holds one entry per file below the root
directory, named by its path relative to that root, with the file's
contents unchanged. -/
def shutil_make_archive (fs : FS) (dir : List Char) : ZipArchive :=
  ⟨fs.files.filterMap (fun e =>
    if (dir ++ ['/']).isPrefixOf e.1
    then some (e.1.drop (dir.length + 1), e.2)
    else none)⟩

/-- Embeds `OptionsWorker.rezip` (app.py lines 239-243) at the archive
level: recompress the whole temporary directory tree into a fresh
archive (the `os.replace` onto the original archive file is the
orchestrator-level effect treated in the pipeline model). -/
def rezip (fs : FS) (temporary_directory : List Char) : ZipArchive :=
  shutil_make_archive fs temporary_directory

/-- Modelled from the documented contract of `ZipFile.extractall`: write
every entry of the archive, in order, into the destination file
system. -/
def extractall (z : ZipArchive) (fs : FS) : FS :=
  z.entries.foldl (fun acc e => acc.write e.1 e.2) fs

theorem foldl_write_read :
    ∀ (entries : List (List Char × List Char)) (fs : FS) (p : List Char),
      (entries.map Prod.fst).Nodup →
      FS.read (entries.foldl (fun acc e => acc.write e.1 e.2) fs) p
        = (match entries.find? (fun e => e.1 == p) with
           | some e => some e.2
           | none => fs.read p) := by
  intro entries
  induction entries with
  | nil => intro fs p _; rfl
  | cons e rest ih =>
    intro fs p hnd
    have hnd0 := List.nodup_cons.mp hnd
    show FS.read (rest.foldl (fun acc e2 => acc.write e2.1 e2.2)
      (fs.write e.1 e.2)) p = _
    rw [ih (fs.write e.1 e.2) p hnd0.2]
    by_cases hp : e.1 = p
    · subst hp
      have hfind : rest.find? (fun e2 => e2.1 == e.1) = none := by
        rw [List.find?_eq_none]
        intro x hx hbx
        have hxe : x.1 = e.1 := by simpa using hbx
        exact hnd0.1 (hxe ▸ List.mem_map.mpr ⟨x, hx, rfl⟩)
      rw [hfind, List.find?_cons_of_pos rest (by simp)]
      exact FS.read_write_same fs e.1 e.2
    · rw [List.find?_cons_of_neg rest (by simp [hp])]
      cases hfr : rest.find? (fun e2 => e2.1 == p) with
      | some x => rfl
      | none => exact FS.read_write_other fs e.1 e.2 p (Ne.symm hp)

theorem foldl_write_length :
    ∀ (entries : List (List Char × List Char)) (fs : FS),
      (entries.map Prod.fst).Nodup →
      (∀ e ∈ entries, fs.read e.1 = none) →
      (entries.foldl (fun acc e => acc.write e.1 e.2) fs).files.length
        = fs.files.length + entries.length := by
  intro entries
  induction entries with
  | nil => intro fs _ _; rfl
  | cons e rest ih =>
    intro fs hnd hnone
    have hnd0 := List.nodup_cons.mp hnd
    have hnn : ∀ x ∈ rest, (fs.write e.1 e.2).read x.1 = none := by
      intro x hx
      have hne : x.1 ≠ e.1 := by
        intro hh
        exact hnd0.1 (hh ▸ List.mem_map.mpr ⟨x, hx, rfl⟩)
      rw [FS.read_write_other fs e.1 e.2 x.1 hne]
      exact hnone x (List.mem_cons_of_mem e hx)
    have hw : (fs.write e.1 e.2).files.length = fs.files.length + 1 := by
      have hr := hnone e (List.mem_cons_self e rest)
      unfold FS.read at hr
      have hfnone : fs.files.find? (fun y => y.1 == e.1) = none :=
        Option.map_eq_none.mp hr
      have hfeq : fs.files.filter (fun x => !(x.1 == e.1)) = fs.files := by
        apply List.filter_eq_self.mpr
        intro x hx
        have := List.find?_eq_none.mp hfnone x hx
        simpa using this
      unfold FS.write
      simp [hfeq]
    show (rest.foldl (fun acc e2 => acc.write e2.1 e2.2)
      (fs.write e.1 e.2)).files.length = _
    rw [ih (fs.write e.1 e.2) hnd0.2 hnn, hw]
    simp [Nat.add_assoc, Nat.add_comm 1 rest.length]

theorem make_archive_find (fs : FS) (dir rel : List Char) :
    ((shutil_make_archive fs dir).entries.find? (fun e => e.1 == rel))
      = (fs.files.find? (fun e => e.1 == dir ++ '/' :: rel)).map
          (fun e => (rel, e.2)) := by
  unfold shutil_make_archive
  have h : ∀ l : List (List Char × List Char),
      ((l.filterMap (fun e => if (dir ++ ['/']).isPrefixOf e.1
        then some (e.1.drop (dir.length + 1), e.2) else none)).find?
          (fun e => e.1 == rel))
        = (l.find? (fun e => e.1 == dir ++ '/' :: rel)).map
            (fun e => (rel, e.2)) := by
    intro l
    induction l with
    | nil => rfl
    | cons e l ih =>
      by_cases hpre : ((dir ++ ['/']).isPrefixOf e.1) = true
      · rw [List.filterMap_cons_some (by rw [if_pos hpre])]
        by_cases hstrip : e.1.drop (dir.length + 1) = rel
        · have he : e.1 = dir ++ '/' :: rel := by
            rcases List.isPrefixOf_iff_prefix.mp hpre with ⟨u, hu⟩
            have hlen : (dir ++ ['/']).length = dir.length + 1 := by simp
            have hdropu : e.1.drop (dir.length + 1) = u := by
              rw [← hu, ← hlen, List.drop_left]
            have hu2 : u = rel := hdropu.symm.trans hstrip
            rw [← hu, hu2]
            simp
          rw [hstrip, List.find?_cons_of_pos _ (by simp),
            List.find?_cons_of_pos _ (by simp [he])]
          rfl
        · have hne : e.1 ≠ dir ++ '/' :: rel := by
            intro hh
            apply hstrip
            rw [hh]
            have hsplit : dir ++ '/' :: rel = (dir ++ ['/']) ++ rel := by
              simp
            have hlen : (dir ++ ['/']).length = dir.length + 1 := by simp
            rw [hsplit, ← hlen, List.drop_left]
          rw [List.find?_cons_of_neg _ (by simp [hstrip]),
            List.find?_cons_of_neg _ (by simp [hne]), ih]
      · rw [List.filterMap_cons_none (by rw [if_neg hpre])]
        have hne : e.1 ≠ dir ++ '/' :: rel := by
          intro hh
          apply hpre
          rw [hh]
          have hsplit : dir ++ '/' :: rel = (dir ++ ['/']) ++ rel := by simp
          rw [hsplit]
          exact List.isPrefixOf_iff_prefix.mpr (List.prefix_append _ _)
        rw [List.find?_cons_of_neg _ (by simp [hne]), ih]
  exact h fs.files

theorem make_archive_nodup (fs : FS) (dir : List Char)
    (hnd : (fs.files.map Prod.fst).Nodup) :
    ((shutil_make_archive fs dir).entries.map Prod.fst).Nodup := by
  have hentries : (shutil_make_archive fs dir).entries
      = (fs.files.filter (fun e => (dir ++ ['/']).isPrefixOf e.1)).map
          (fun e => (e.1.drop (dir.length + 1), e.2)) := by
    unfold shutil_make_archive
    exact filterMap_if_eq_filter_map _ _ fs.files
  have hpairs : fs.files.Nodup := hnd.of_map
  have hfilter : (fs.files.filter
      (fun e => (dir ++ ['/']).isPrefixOf e.1)).Nodup := hpairs.filter _
  have hinj := List.inj_on_of_nodup_map hnd
  rw [hentries, List.map_map]
  apply List.Nodup.map_on ?inj hfilter
  intro x hx y hy hf
  have hxm : x ∈ fs.files := List.mem_of_mem_filter hx
  have hym : y ∈ fs.files := List.mem_of_mem_filter hy
  have hpx : ((dir ++ ['/']).isPrefixOf x.1) = true :=
    (List.mem_filter.mp hx).2
  have hpy : ((dir ++ ['/']).isPrefixOf y.1) = true :=
    (List.mem_filter.mp hy).2
  apply hinj hxm hym
  rcases List.isPrefixOf_iff_prefix.mp hpx with ⟨ux, hux⟩
  rcases List.isPrefixOf_iff_prefix.mp hpy with ⟨uy, huy⟩
  have hlen : (dir ++ ['/']).length = dir.length + 1 := by simp
  have dx : x.1.drop (dir.length + 1) = ux := by
    rw [← hux, ← hlen, List.drop_left]
  have dy : y.1.drop (dir.length + 1) = uy := by
    rw [← huy, ← hlen, List.drop_left]
  have hf2 : x.1.drop (dir.length + 1) = y.1.drop (dir.length + 1) := by
    simpa using hf
  show x.1 = y.1
  rw [← hux, ← huy, ← dx, ← dy, hf2]

/-- C2: repackaging is lossless.  For every extracted tree (a file
system with distinct paths) and temporary directory, extracting the
archive produced by `rezip` yields exactly the files below that
directory: every relative path reads back the original contents (and
nothing else exists), and the entry count equals the number of files in
the tree.  The statement quantifies over the current tree, so it covers
in particular the tree as modified by the icon-fix step. -/
theorem rezip_roundtrip (fs : FS) (tmp : List Char)
    (hnd : (fs.files.map Prod.fst).Nodup) :
    (∀ rel : List Char,
      (extractall (rezip fs tmp) FS.empty).read rel
        = fs.read (joinPath tmp rel)) ∧
    (extractall (rezip fs tmp) FS.empty).files.length
      = (fs.files.filter (fun e => (tmp ++ ['/']).isPrefixOf e.1)).length := by
  have hnd2 := make_archive_nodup fs tmp hnd
  constructor
  · intro rel
    unfold extractall rezip
    rw [foldl_write_read _ FS.empty rel hnd2, make_archive_find fs tmp rel]
    cases hf : fs.files.find? (fun e => e.1 == tmp ++ '/' :: rel) with
    | some x =>
      have hr : fs.read (joinPath tmp rel) = some x.2 := by
        unfold FS.read joinPath
        rw [hf]
        rfl
      rw [hr]
      rfl
    | none =>
      have hr : fs.read (joinPath tmp rel) = none := by
        unfold FS.read joinPath
        rw [hf]
        rfl
      rw [hr]
      rfl
  · unfold extractall rezip
    rw [foldl_write_length _ FS.empty hnd2 (fun e _ => rfl)]
    have hentries : (shutil_make_archive fs tmp).entries
        = (fs.files.filter (fun e => (tmp ++ ['/']).isPrefixOf e.1)).map
            (fun e => (e.1.drop (tmp.length + 1), e.2)) := by
      unfold shutil_make_archive
      exact filterMap_if_eq_filter_map _ _ fs.files
    rw [hentries, List.length_map]
    simp [FS.empty]

/-- Witness for C2 on a two-file tree: both files read back unchanged
after the round trip and the entry count is the file count. -/
theorem rezip_roundtrip_witness :
    (extractall (rezip ⟨[("tmp".data ++ '/' :: "a.txt".data, "A".data),
        ("tmp".data ++ '/' :: "b.txt".data, "B".data)]⟩ "tmp".data)
      FS.empty).read "a.txt".data = some "A".data ∧
    (extractall (rezip ⟨[("tmp".data ++ '/' :: "a.txt".data, "A".data),
        ("tmp".data ++ '/' :: "b.txt".data, "B".data)]⟩ "tmp".data)
      FS.empty).files.length = 2 := by
  constructor
  · have h := (rezip_roundtrip ⟨[("tmp".data ++ '/' :: "a.txt".data,
      "A".data), ("tmp".data ++ '/' :: "b.txt".data, "B".data)]⟩
      "tmp".data (by decide)).1 "a.txt".data
    rw [h]
    rfl
  · have h := (rezip_roundtrip ⟨[("tmp".data ++ '/' :: "a.txt".data,
      "A".data), ("tmp".data ++ '/' :: "b.txt".data, "B".data)]⟩
      "tmp".data (by decide)).2
    rw [h]
    rfl

/-- The pipeline steps a run of `OptionsWorker._run` can perform. -/
inductive PStep where
  | fixIcon : PStep
  | rezip : PStep
  | createInstaller : PStep
  | moveInstaller : PStep
deriving DecidableEq

/-- Embeds `OptionsWorker._run` (app.py lines 245-254) as the sequence
of pipeline steps a successful run performs in order: when fix-icon is
selected, fix the icon and then immediately rezip; when create-installer
is selected, build the installer from the extracted tree and move the
artifact to the chosen destination. -/
def options_worker_run (should_fix_icon should_create_installer : Bool) :
    List PStep :=
  (if should_fix_icon then [PStep.fixIcon, PStep.rezip] else []) ++
  (if should_create_installer
   then [PStep.createInstaller, PStep.moveInstaller] else [])

/-- Orchestrator-level state: the archive file on disk, the extracted
tree, and a record of the tree the installer was built from. -/
structure WorkerState where
  archive : List Char
  tree : List Char
  installerBuiltFrom : Option (List Char)

/-- Effect of one pipeline step: the icon fix rewrites the tree
(abstract effect `fixF`), the rezip replaces the archive file with the
compression (`zipF`) of the current tree, the installer build reads the
current extracted tree — never the archive — and the artifact move
touches neither. -/
def step_effect (fixF zipF : List Char → List Char) (st : WorkerState) :
    PStep → WorkerState
  | PStep.fixIcon => { st with tree := fixF st.tree }
  | PStep.rezip => { st with archive := zipF st.tree }
  | PStep.createInstaller => { st with installerBuiltFrom := some st.tree }
  | PStep.moveInstaller => st

/-- Run a sequence of pipeline steps from a starting state. -/
def run_steps (fixF zipF : List Char → List Char) (st : WorkerState)
    (steps : List PStep) : WorkerState :=
  steps.foldl (step_effect fixF zipF) st

/-- C1: when only create-installer is selected the run performs no
repackaging step and the original archive's bytes are untouched; when
fix-icon is selected, rezip happens exactly once, immediately after the
icon fix and before any installer step, and the installer is always
built from the extracted tree (after the icon fix), never from the
rezipped archive. -/
theorem options_worker_run_spec (fixF zipF : List Char → List Char)
    (st : WorkerState) (ci : Bool) :
    ((options_worker_run false ci).count PStep.rezip = 0 ∧
      (run_steps fixF zipF st (options_worker_run false ci)).archive
        = st.archive) ∧
    ((options_worker_run true ci).count PStep.rezip = 1 ∧
      options_worker_run true ci
        = PStep.fixIcon :: PStep.rezip ::
            (if ci then [PStep.createInstaller, PStep.moveInstaller]
             else []) ∧
      (run_steps fixF zipF st
          (options_worker_run true ci)).installerBuiltFrom
        = (if ci then some (fixF st.tree) else st.installerBuiltFrom) ∧
      (run_steps fixF zipF st (options_worker_run true ci)).archive
        = zipF (fixF st.tree)) := by
  cases ci <;> exact ⟨⟨rfl, rfl⟩, rfl, rfl, rfl, rfl⟩

/-- The per-run UI session state relevant to failure handling. -/
structure SessionState where
  controlsVisible : Bool
  progressWidget : Bool
  tempDirAlive : Bool
  errorShown : Bool
  removed : Bool

/-- Embeds `display_error` (app.py lines 172-177): report the error to
the user in a modal dialog. -/
def display_error (s : SessionState) : SessionState :=
  { s with errorShown := true }

/-- Embeds `ProjectOptionsWidget.set_enable_controls` (app.py lines
366-370): toggle the option controls. -/
def set_enable_controls (s : SessionState) (enabled : Bool) :
    SessionState :=
  { s with controlsVisible := enabled }

/-- Embeds `ProjectOptionsWidget.cleanup` (app.py lines 400-405): drop
the progress widget and re-enable the option controls. -/
def cleanup (s : SessionState) : SessionState :=
  set_enable_controls { s with progressWidget := false } true

/-- Embeds `ProjectOptionsWidget.worker_error` (app.py lines 411-413):
an error during the Running stage is reported, then `cleanup` runs;
nothing touches the extracted tree's temporary directory. -/
def worker_error (s : SessionState) : SessionState :=
  cleanup (display_error s)

/-- Embeds `ProjectOptionsWidget.remove` (app.py lines 422-424): delete
the temporary directory and dismiss the run. -/
def remove (s : SessionState) : SessionState :=
  { s with tempDirAlive := false, removed := true }

/-- Embeds `ProjectOptionsWidget.extract_worker_error` (app.py lines
407-409): an error during the Extracting stage is reported like any
worker error and then the whole run is removed at once. -/
def extract_worker_error (s : SessionState) : SessionState :=
  remove (worker_error s)

/-- C9: a Running-stage failure reports the error, re-enables the option
controls and keeps the temporary extracted tree (the run survives for a
retry), while an Extracting-stage failure additionally discards the run
at once, deleting the temporary directory. -/
theorem error_handling_asymmetry (s : SessionState) :
    (worker_error s).errorShown = true ∧
    (worker_error s).controlsVisible = true ∧
    (worker_error s).tempDirAlive = s.tempDirAlive ∧
    (worker_error s).removed = s.removed ∧
    (extract_worker_error s).errorShown = true ∧
    (extract_worker_error s).tempDirAlive = false ∧
    (extract_worker_error s).removed = true :=
  ⟨rfl, rfl, rfl, rfl, rfl, rfl, rfl⟩
